import Mathlib

/-!
Formal model of the grouped fit / extrapolation workflow of the MAST-ML
sources `ExtrapolateFull.py`, `SingleFitGrouped.py` and
`ExtrapolateFullFit.py`.

Modelling conventions:
* Python floats are modelled as rationals (`ℚ`).
* Fallible numpy / sklearn calls are modelled with `Option`; `none` models a
  raised exception (e.g. `sklearn.metrics.mean_squared_error` raises
  `ValueError` on zero samples, `min([])` raises `ValueError`, fancy indexing
  out of range raises `IndexError`).
* RMSE values are tracked by their squares: the sources report
  `np.sqrt(mean_squared_error(...))`, whose value is irrational in general,
  so a reported RMSE `r` corresponds to a modelled mean-squared-error value
  `r * r`.
* Group labels are modelled as `String`.
-/

set_option maxHeartbeats 1000000

namespace MastML

/-- Distinct labels of a list in first-encounter order: the key order of a
Python `dict` built by scanning rows in order. -/
def firstDedup {α : Type} [DecidableEq α] (l : List α) : List α :=
  l.foldl (fun acc g => if g ∈ acc then acc else acc ++ [g]) []

/-- Modelled from the spec: `portion_data.get_test_train_data.get_logo_indices`
and `get_field_logo_indices` are imported collaborators whose source is not in
the repository slice; spec §4.1 (GroupIndexer) specifies a mapping from each
distinct label to the ordered list of row indices (in original row order)
bearing that label. -/
def buildGroupIndex (labels : List String) : List (String × List Nat) :=
  (firstDedup labels).map fun g =>
    (g, (List.range labels.length).filter fun i => decide (labels[i]? = some g))

/-- The `np.intersect1d(fit_groups, topredict_groups)` call of
`ExtrapolateFull.execute` (line 75), applied to the two key lists: sorted
distinct common labels. -/
def matchedGroups (trainLabels evalLabels : List String) : List String :=
  List.insertionSort (· ≤ ·)
    ((firstDedup trainLabels).filter fun g => decide (g ∈ firstDedup evalLabels))

/-- The supported/unsupported row partition loop of `ExtrapolateFull.execute`
(lines 84–90): for each evaluation group in key order, its row indices are
appended to the supported bucket when the group is matched and to the
unsupported bucket otherwise. -/
def splitSupported : List (String × List Nat) → List String → List Nat × List Nat
  | [], _ => ([], [])
  | (g, idxs) :: rest, matched =>
    let p := splitSupported rest matched
    if g ∈ matched then (idxs ++ p.1, p.2) else (p.1, idxs ++ p.2)

/-- The training-row selection of `ExtrapolateFull.execute` (lines 77–82) when
`fit_only_on_matched_groups == 1`: concatenate the index lists of the matched
groups, iterating the matched groups in `np.intersect1d` (sorted) order. -/
def fitIndex (trainLabels evalLabels : List String) : List Nat :=
  (matchedGroups trainLabels evalLabels).flatMap fun g =>
    ((buildGroupIndex trainLabels).lookup g).getD []

/-- Numpy fancy indexing `xs[idx]`; `none` models the `IndexError` raised when
an index is out of range. -/
def gather {α : Type} (xs : List α) : List Nat → Option (List α)
  | [] => some []
  | i :: is =>
    match xs[i]?, gather xs is with
    | some v, some rest => some (v :: rest)
    | _, _ => none

/-- `sklearn.metrics.mean_squared_error(y_true, y_pred)`: the mean of the
squared differences. `none` models the `ValueError` raised on zero samples or
on inconsistent lengths. -/
def mean_squared_error (y_true y_pred : List ℚ) : Option ℚ :=
  if y_true.length = y_pred.length ∧ y_true.length ≠ 0 then
    some ((((y_true.zip y_pred).map fun p => (p.1 - p.2) ^ 2).sum) / (y_true.length : ℚ))
  else none

/-- Squared value of `supported_rms` in `ExtrapolateFull.execute` (lines
101–102): mean squared error over the rows selected by `supported_index`. -/
def supported_rms (ydata ypred : List ℚ) (sup : List Nat) : Option ℚ := do
  let a ← gather ydata sup
  let b ← gather ypred sup
  mean_squared_error a b

/-- Squared value of `unsupported_rms` in `ExtrapolateFull.execute` (lines
103–104): mean squared error over the rows selected by `unsupported_index`. -/
def unsupported_rms (ydata ypred : List ℚ) (unsup : List Nat) : Option ℚ := do
  let a ← gather ydata unsup
  let b ← gather ypred unsup
  mean_squared_error a b

/-- The three statistics of `ExtrapolateFull.execute` (lines 100–104) in
program order: overall, then supported, then unsupported (each the squared
RMSE). -/
def evaluator_stats (ydata ypred : List ℚ) (sup unsup : List Nat) :
    Option (ℚ × ℚ × ℚ) := do
  let o ← mean_squared_error ydata ypred
  let s ← supported_rms ydata ypred sup
  let u ← unsupported_rms ydata ypred unsup
  pure (o, s, u)

/-- Relation between an `Option`-valued squared-RMSE computation and the RMSE
value `r` the program would print: the computation succeeds with value
`r * r` (i.e. `np.sqrt` of it is `r`) and `r` is the nonnegative root. -/
def rmseSqIs (o : Option ℚ) (r : ℚ) : Prop := o = some (r * r) ∧ 0 ≤ r

/-- `np.intersect1d` on two row-index lists (SingleFitGrouped line 182):
sorted distinct common indices. -/
def intersectIdx (a b : List Nat) : List Nat :=
  List.insertionSort (· ≤ ·) ((firstDedup a).filter fun i => decide (i ∈ b))

/-- Per-group record built by `SingleFitGrouped.get_per_group_statistics`
(lines 172–189); both fields hold squared RMSEs, and
`rmse_plot_filter_out = none` models absence of the key from the Python
dictionary. -/
structure GroupStats where
  rmse : ℚ
  rmse_plot_filter_out : Option ℚ
deriving DecidableEq

/-- Body of `SingleFitGrouped.get_per_group_statistics` (lines 172–189) for a
single group: always compute `rmse` over the group's rows; when a plot filter
is active, additionally compute `rmse_plot_filter_out` over the intersection
with `plotting_index`, but only when that intersection is non-empty. -/
def get_per_group_statistic (ypred ydata : List ℚ) (g_index : List Nat)
    (plotting_index : Option (List Nat)) : Option GroupStats := do
  let gp ← gather ypred g_index
  let gy ← gather ydata g_index
  let r ← mean_squared_error gp gy
  match plotting_index with
  | none => pure ⟨r, none⟩
  | some pidx =>
    let gi := intersectIdx g_index pidx
    if 0 < gi.length then do
      let gp2 ← gather ypred gi
      let gy2 ← gather ydata gi
      let r2 ← mean_squared_error gp2 gy2
      pure ⟨r, some r2⟩
    else pure ⟨r, none⟩

/-- Slot entries of `SingleFitGrouped.get_outlying_groups`: pairs
`(criterion value, group label)`. -/
abbrev Entry := ℚ × String

/-- Sentinel slot `(0, "nogroup")` (SingleFitGrouped line 196). -/
def sent : Entry := ((0 : ℚ), "nogroup")

/-- Python tuple `<` on `(float, str)` pairs: lexicographic. -/
def tupLt (a b : Entry) : Bool :=
  decide (a.1 < b.1) || (decide (a.1 = b.1) && decide (a.2 < b.2))

/-- Left fold of Python `min`: the current minimum is replaced exactly when a
later element is strictly smaller, so the first minimum wins. -/
def pyFold : Entry → List Entry → Entry
  | x, [] => x
  | x, y :: ys => pyFold (if tupLt y x then y else x) ys

/-- Python `min` over a list, first minimum winning; `none` models the
`ValueError` raised by `min([])`. -/
def pyMin : List Entry → Option Entry
  | [] => none
  | x :: xs => some (pyFold x xs)

/-- Python `list.index` (first position holding an element equal to the
argument), total with default past the end as only in-range uses occur. -/
def idxOf : List Entry → Entry → Nat
  | [], _ => 0
  | x :: xs, mn => if x = mn then 0 else idxOf xs mn + 1

/-- One iteration of the loop of `SingleFitGrouped.get_outlying_groups`
(lines 201–207): take the minimum slot first (raising on an empty slot list),
then, when the group's criterion statistic is present and strictly exceeds the
minimum slot's value, overwrite the first slot holding that minimum. -/
def outlierStep (hr : List Entry) (e : String × Option ℚ) : Option (List Entry) :=
  match pyMin hr with
  | none => none
  | some mn =>
    match e.2 with
    | none => some hr
    | some v => if mn.1 < v then some (hr.set (idxOf hr mn) (v, e.1)) else some hr

/-- The full loop of `SingleFitGrouped.get_outlying_groups` over the test
groups in key order. -/
def outlierLoop : List (String × Option ℚ) → List Entry → Option (List Entry)
  | [], hr => some hr
  | e :: rest, hr =>
    match outlierStep hr e with
    | none => none
    | some hr' => outlierLoop rest hr'

/-- `SingleFitGrouped.get_outlying_groups` (lines 191–211): `stats` maps each
test group, in key order, to its criterion statistic when present
(`'rmse'`, or `'rmse_plot_filter_out'` under a plot filter); `k` is
`mark_outlying_groups`.  The working list holds `min(k, number of groups)`
sentinel slots. -/
def getOutlyingGroups (stats : List (String × Option ℚ)) (k : Nat) :
    Option (List Entry) :=
  outlierLoop stats (List.replicate (min k stats.length) sent)

/-- The groups of a statistics mapping whose criterion statistic is present,
as `(value, label)` entries in group order. -/
def presentEntries (stats : List (String × Option ℚ)) : List Entry :=
  stats.filterMap fun p => p.2.map fun v => (v, p.1)

/-- Non-sentinel entries of a slot list. -/
def nsFilter (l : List Entry) : List Entry := l.filter fun e => e != sent

/-- Value-distinctness of two entries. -/
def valNe (a b : Entry) : Prop := a.1 ≠ b.1

/-- Invariant of the outlier-selection loop relating the slot list `hr` to the
criterion entries `A` absorbed so far. -/
structure SlotsInv (A hr : List Entry) : Prop where
  mem_of : ∀ e ∈ hr, e = sent ∨ e ∈ A
  count : (nsFilter hr).length = min hr.length A.length
  dom : ∀ x ∈ A, x ∉ hr → ∀ y ∈ hr, y ≠ sent → x.1 < y.1
  pair : (nsFilter hr).Pairwise valNe

/-- Configuration state of `SingleFitGrouped.__init__` (lines 100–104). -/
structure SFGConfig where
  grouping_feature : String
  mark_outlying_groups : Nat
  fit_only_on_matched_groups : Bool
deriving DecidableEq

/-- `SingleFitGrouped.__init__` (lines 100–104): raises
`ValueError("grouping_feature is not set.")` when no grouping feature is
given. -/
def sfg_init (grouping_feature : Option String) (mark : Nat) (fitOnly : Bool) :
    Except String SFGConfig :=
  match grouping_feature with
  | none => .error "grouping_feature is not set."
  | some gf => .ok ⟨gf, mark, fitOnly⟩

/-- `SingleFitGrouped.set_data` (lines 117–126): after the parent set-up,
raises `ValueError("testing target data cannot be None")` when the testing
target data is absent. -/
def sfg_set_data (testing_target_data : Option (List ℚ)) :
    Except String (List ℚ) :=
  match testing_target_data with
  | none => .error "testing target data cannot be None"
  | some y => .ok y

/-- Events of a grouped-fit run. -/
inductive SFGEv where
  | fit
  | stats
deriving DecidableEq

/-- Modelled from the spec: the `SingleFit` base-class driver is not in the
repository slice; spec §5 and §7 state that data set-up runs before the model
is fitted and statistics are computed afterwards.  Only this run order is taken
from the spec — the two raising checks are `sfg_init` and `sfg_set_data`
straight from `SingleFitGrouped.py`. -/
def sfg_run (grouping_feature : Option String) (mark : Nat) (fitOnly : Bool)
    (testing_target_data : Option (List ℚ)) : Except String (List SFGEv) := do
  let _cfg ← sfg_init grouping_feature mark fitOnly
  let _y ← sfg_set_data testing_target_data
  pure [SFGEv.fit, SFGEv.stats]

/-- Externally visible events of `ExtrapolateFull.execute`. -/
inductive Ev where
  | fit (n : Nat)
  | predictEval (n : Nat)
  | predictStd (n : Nat)
  | rmse (which : String)
deriving DecidableEq

/-- Result of a modelled `ExtrapolateFull.execute` run: the event trace, the
final fitted model, the predictions, and the three squared RMSE statistics
(absent components mean the run raised before producing them). -/
structure ExecOut (σ : Type) where
  trace : List Ev
  model : Option σ
  predictions : Option (List ℚ)
  stats : Option (ℚ × ℚ × ℚ)

/-- RMSE phase of `ExtrapolateFull.execute` (lines 100–104): the emitted
events and the statistics triple, stopping at the first raising computation. -/
def rmseEvents (ydata ypred : List ℚ) (sup unsup : List Nat) :
    List Ev × Option (ℚ × ℚ × ℚ) :=
  match mean_squared_error ydata ypred with
  | none => ([], none)
  | some o =>
    match supported_rms ydata ypred sup with
    | none => ([Ev.rmse "overall"], none)
    | some s =>
      match unsupported_rms ydata ypred unsup with
      | none => ([Ev.rmse "overall", Ev.rmse "supported"], none)
      | some u =>
        ([Ev.rmse "overall", Ev.rmse "supported", Ev.rmse "unsupported"],
          some (o, s, u))

/-- Fit-and-later phase of `ExtrapolateFull.execute` (lines 92–108), applied
to the (possibly filtered) training arrays `p`: fit once, predict once on the
full evaluation feature matrix, optionally predict on the standard-conditions
matrix, then compute the three RMSE statistics. -/
def executeFullAux {σ ρ : Type}
    (fitfn : List ρ → List ℚ → σ) (predictfn : σ → List ρ → List ℚ)
    (trainLabels : List String) (topredict_Xdata : List ρ)
    (topredict_ydata : List ℚ) (evalLabels : List String)
    (std_Xdata : Option (List ρ)) (p : List ρ × List ℚ) : ExecOut σ :=
  let m := fitfn p.1 p.2
  let ypred := predictfn m topredict_Xdata
  let su := splitSupported (buildGroupIndex evalLabels)
    (matchedGroups trainLabels evalLabels)
  let stdEv : List Ev :=
    match std_Xdata with
    | some sx => [Ev.predictStd sx.length]
    | none => []
  let re := rmseEvents topredict_ydata ypred su.1 su.2
  ⟨[Ev.fit p.1.length, Ev.predictEval topredict_Xdata.length] ++ stdEv ++ re.1,
    some m, some ypred, re.2⟩

set_option linter.unusedVariables false in
/-- `ExtrapolateFull.execute` (lines 47–108), abstracted over the model
capability `fitfn` / `predictfn` and the already-parsed datasets.  The
`plot_filter_out` parameter is bound by the signature (line 23) but never read
afterwards (only the comment on line 93 mentions it). -/
def executeFull {σ ρ : Type}
    (fitfn : List ρ → List ℚ → σ) (predictfn : σ → List ρ → List ℚ)
    (fit_Xdata : List ρ) (fit_ydata : List ℚ) (trainLabels : List String)
    (topredict_Xdata : List ρ) (topredict_ydata : List ℚ)
    (evalLabels : List String) (std_Xdata : Option (List ρ))
    (plot_filter_out : String) (fit_only_on_matched_groups : Bool) :
    ExecOut σ :=
  let fidx := fitIndex trainLabels evalLabels
  let fdata : Option (List ρ × List ℚ) :=
    if fit_only_on_matched_groups then
      match gather fit_Xdata fidx, gather fit_ydata fidx with
      | some fx, some fy => some (fx, fy)
      | _, _ => none
    else some (fit_Xdata, fit_ydata)
  match fdata with
  | none => ⟨[], none, none, none⟩
  | some p =>
    executeFullAux fitfn predictfn trainLabels topredict_Xdata topredict_ydata
      evalLabels std_Xdata p

theorem mem_firstDedup_go {α : Type} [DecidableEq α] :
    ∀ (l acc : List α) (g : α),
      (g ∈ l.foldl (fun acc g => if g ∈ acc then acc else acc ++ [g]) acc) ↔
        g ∈ acc ∨ g ∈ l := by
  intro l
  induction l with
  | nil => intro acc g; simp
  | cons x xs ih =>
    intro acc g
    rw [List.foldl_cons, ih]
    by_cases hx : x ∈ acc
    · simp only [if_pos hx, List.mem_cons]
      constructor
      · rintro (h | h)
        · exact Or.inl h
        · exact Or.inr (Or.inr h)
      · rintro (h | rfl | h)
        · exact Or.inl h
        · exact Or.inl hx
        · exact Or.inr h
    · simp only [if_neg hx, List.mem_append, List.mem_singleton, List.mem_cons]
      tauto

theorem mem_firstDedup {α : Type} [DecidableEq α] (l : List α) (g : α) :
    g ∈ firstDedup l ↔ g ∈ l := by
  rw [firstDedup, mem_firstDedup_go]
  simp

theorem mem_buildGroupIndex_row {labels : List String} {g : String} {l : List Nat}
    (h : (g, l) ∈ buildGroupIndex labels) (i : Nat) :
    i ∈ l ↔ labels[i]? = some g := by
  simp only [buildGroupIndex, List.mem_map] at h
  obtain ⟨a, _, heq⟩ := h
  rw [Prod.ext_iff] at heq
  obtain ⟨h1, h2⟩ := heq
  dsimp only at h1 h2
  subst h1
  rw [← h2, List.mem_filter, List.mem_range, decide_eq_true_eq]
  constructor
  · rintro ⟨_, h⟩; exact h
  · intro h; exact ⟨(List.getElem?_eq_some_iff.1 h).1, h⟩

theorem buildGroupIndex_covers {labels : List String} {i : Nat}
    (hi : i < labels.length) :
    ∃ g l, (g, l) ∈ buildGroupIndex labels ∧ i ∈ l := by
  refine ⟨labels[i],
    (List.range labels.length).filter fun j => decide (labels[j]? = some labels[i]),
    ?_, ?_⟩
  · simp only [buildGroupIndex, List.mem_map]
    exact ⟨labels[i], (mem_firstDedup ..).2 (labels.getElem_mem hi), rfl⟩
  · rw [List.mem_filter, List.mem_range, decide_eq_true_eq]
    exact ⟨hi, List.getElem?_eq_getElem hi⟩

theorem mem_splitSupported_fst :
    ∀ (idx : List (String × List Nat)) (matched : List String) (i : Nat),
      i ∈ (splitSupported idx matched).1 ↔ ∃ p ∈ idx, p.1 ∈ matched ∧ i ∈ p.2 := by
  intro idx
  induction idx with
  | nil => simp [splitSupported]
  | cons p rest ih =>
    intro matched i
    obtain ⟨g, idxs⟩ := p
    by_cases hg : g ∈ matched
    · simp only [splitSupported, if_pos hg, List.mem_append, ih, List.mem_cons]
      constructor
      · rintro (h | ⟨q, hq, hqm, hqi⟩)
        · exact ⟨(g, idxs), Or.inl rfl, hg, h⟩
        · exact ⟨q, Or.inr hq, hqm, hqi⟩
      · rintro ⟨q, hq | hq, hqm, hqi⟩
        · subst hq; exact Or.inl hqi
        · exact Or.inr ⟨q, hq, hqm, hqi⟩
    · simp only [splitSupported, if_neg hg, ih, List.mem_cons]
      constructor
      · rintro ⟨q, hq, hqm, hqi⟩
        exact ⟨q, Or.inr hq, hqm, hqi⟩
      · rintro ⟨q, hq | hq, hqm, hqi⟩
        · subst hq; exact absurd hqm hg
        · exact ⟨q, hq, hqm, hqi⟩

theorem mem_splitSupported_snd :
    ∀ (idx : List (String × List Nat)) (matched : List String) (i : Nat),
      i ∈ (splitSupported idx matched).2 ↔ ∃ p ∈ idx, p.1 ∉ matched ∧ i ∈ p.2 := by
  intro idx
  induction idx with
  | nil => simp [splitSupported]
  | cons p rest ih =>
    intro matched i
    obtain ⟨g, idxs⟩ := p
    by_cases hg : g ∈ matched
    · simp only [splitSupported, if_pos hg, ih, List.mem_cons]
      constructor
      · rintro ⟨q, hq, hqm, hqi⟩
        exact ⟨q, Or.inr hq, hqm, hqi⟩
      · rintro ⟨q, hq | hq, hqm, hqi⟩
        · subst hq; exact absurd hg hqm
        · exact ⟨q, hq, hqm, hqi⟩
    · simp only [splitSupported, if_neg hg, List.mem_append, ih, List.mem_cons]
      constructor
      · rintro (h | ⟨q, hq, hqm, hqi⟩)
        · exact ⟨(g, idxs), Or.inl rfl, hg, h⟩
        · exact ⟨q, Or.inr hq, hqm, hqi⟩
      · rintro ⟨q, hq | hq, hqm, hqi⟩
        · subst hq; exact Or.inl hqi
        · exact Or.inr ⟨q, hq, hqm, hqi⟩

theorem mem_matchedGroups {trainLabels evalLabels : List String} {g : String} :
    g ∈ matchedGroups trainLabels evalLabels ↔ g ∈ trainLabels ∧ g ∈ evalLabels := by
  rw [matchedGroups, List.mem_insertionSort, List.mem_filter, mem_firstDedup,
    decide_eq_true_eq, mem_firstDedup]

theorem lookup_map_pair {β : Type} (f : String → β) :
    ∀ (ks : List String) (g : String),
      ((ks.map fun a => (a, f a)).lookup g) = if g ∈ ks then some (f g) else none := by
  intro ks
  induction ks with
  | nil => intro g; simp [List.lookup]
  | cons k ks ih =>
    intro g
    by_cases hk : g = k
    · subst hk; simp [List.lookup]
    · have hbeq : (g == k) = false := by simp [hk]
      simp [List.lookup, hbeq, ih, hk]

theorem gather_eq_some {α : Type} (xs : List α) :
    ∀ idx : List Nat, (∀ i ∈ idx, i < xs.length) →
      ∃ l, gather xs idx = some l ∧ l.length = idx.length := by
  intro idx
  induction idx with
  | nil => intro _; exact ⟨[], rfl, rfl⟩
  | cons i is ih =>
    intro h
    obtain ⟨l, hl, hlen⟩ := ih fun j hj => h j (List.mem_cons_of_mem _ hj)
    have hlt : i < xs.length := h i (List.mem_cons_self ..)
    have hi : xs[i]? = some (xs.get ⟨i, hlt⟩) := List.getElem?_eq_getElem hlt
    exact ⟨xs.get ⟨i, hlt⟩ :: l, by simp [gather, hi, hl], by simp [hlen]⟩

/-- C1 (amended): the RMSE computations of the evaluation workflow raise on an
empty row subset instead of reporting NaN: with `supported_rows = []` (and
likewise `unsupported_rows = []`, or overall RMSE over empty data) the
computation is the modelled `ValueError` of
`sklearn.metrics.mean_squared_error` on zero samples (`none`), for every
dataset. -/
theorem rmse_empty_rows_error :
    ∀ (ydata ypred : List ℚ),
      supported_rms ydata ypred [] = none ∧
      unsupported_rms ydata ypred [] = none ∧
      mean_squared_error [] [] = none := by
  intro ydata ypred
  refine ⟨?_, ?_, ?_⟩ <;> simp [supported_rms, unsupported_rms, gather,
    mean_squared_error]

/-- C1 counterexample: on the concrete evaluation data `ydata = [1,2]`,
`ypred = [1,2]` with an empty `supported_index`, the supported-RMSE
computation of `ExtrapolateFull.execute` (lines 101–102) is `none`, i.e. the
modelled raised `ValueError` — it does not produce any value (in particular
not a NaN report), so the claim that these computations never raise on an
empty row list is false. -/
theorem rmse_empty_rows_cex :
    supported_rms [1, 2] [1, 2] [] = none := rfl

/-- C4: the matched set is exactly the set intersection of the training and
evaluation group sets; the supported and unsupported row-index lists are
disjoint and their union is exactly the row indices occurring in the
evaluation group-index map; and the concrete scenario with train groups
{X, Y} and eval groups {Y, Z} gives matched = {Y}, row 0 (label Y) supported
and row 1 (label Z) unsupported. -/
theorem group_matcher_partition :
    (∀ (trainLabels evalLabels : List String) (g : String),
        g ∈ matchedGroups trainLabels evalLabels ↔
          g ∈ trainLabels ∧ g ∈ evalLabels) ∧
    (∀ (trainLabels evalLabels : List String) (i : Nat),
        ¬ (i ∈ (splitSupported (buildGroupIndex evalLabels)
                  (matchedGroups trainLabels evalLabels)).1 ∧
           i ∈ (splitSupported (buildGroupIndex evalLabels)
                  (matchedGroups trainLabels evalLabels)).2)) ∧
    (∀ (trainLabels evalLabels : List String) (i : Nat),
        (i ∈ (splitSupported (buildGroupIndex evalLabels)
                (matchedGroups trainLabels evalLabels)).1 ∨
         i ∈ (splitSupported (buildGroupIndex evalLabels)
                (matchedGroups trainLabels evalLabels)).2) ↔
          ∃ p ∈ buildGroupIndex evalLabels, i ∈ p.2) ∧
    matchedGroups ["X", "Y"] ["Y", "Z"] = ["Y"] ∧
    splitSupported (buildGroupIndex ["Y", "Z"]) ["Y"] = ([0], [1]) := by
  refine ⟨?_, ?_, ?_, rfl, rfl⟩
  · intro trainLabels evalLabels g; exact mem_matchedGroups
  · intro trainLabels evalLabels i
    rintro ⟨hs, hu⟩
    rw [mem_splitSupported_fst] at hs
    rw [mem_splitSupported_snd] at hu
    obtain ⟨⟨g, l⟩, hp, hpm, hip⟩ := hs
    obtain ⟨⟨g', l'⟩, hq, hqm, hiq⟩ := hu
    have h1 := (mem_buildGroupIndex_row hp i).1 hip
    have h2 := (mem_buildGroupIndex_row hq i).1 hiq
    rw [h1] at h2
    exact hqm (Option.some.inj h2 ▸ hpm)
  · intro trainLabels evalLabels i
    rw [mem_splitSupported_fst, mem_splitSupported_snd]
    constructor
    · rintro (⟨p, hp, _, hip⟩ | ⟨p, hp, _, hip⟩) <;> exact ⟨p, hp, hip⟩
    · rintro ⟨⟨g, l⟩, hp, hip⟩
      by_cases hm : g ∈ matchedGroups trainLabels evalLabels
      · exact Or.inl ⟨(g, l), hp, hm, hip⟩
      · exact Or.inr ⟨(g, l), hp, hm, hip⟩

theorem mem_fitIndex (trainLabels evalLabels : List String) (i : Nat) :
    i ∈ fitIndex trainLabels evalLabels ↔
      ∃ g, trainLabels[i]? = some g ∧
        g ∈ matchedGroups trainLabels evalLabels := by
  rw [fitIndex, List.mem_flatMap]
  constructor
  · rintro ⟨g, hg, hi⟩
    have hgt : g ∈ trainLabels := (mem_matchedGroups.1 hg).1
    rw [buildGroupIndex, lookup_map_pair,
      if_pos ((mem_firstDedup _ _).2 hgt), Option.getD_some, List.mem_filter,
      List.mem_range, decide_eq_true_eq] at hi
    exact ⟨g, hi.2, hg⟩
  · rintro ⟨g, hgi, hg⟩
    refine ⟨g, hg, ?_⟩
    have hgt : g ∈ trainLabels := (mem_matchedGroups.1 hg).1
    rw [buildGroupIndex, lookup_map_pair,
      if_pos ((mem_firstDedup _ _).2 hgt), Option.getD_some, List.mem_filter,
      List.mem_range, decide_eq_true_eq]
    exact ⟨(List.getElem?_eq_some_iff.1 hgi).1, hgi⟩

theorem fitIndex_lt {trainLabels evalLabels : List String} {i : Nat}
    (h : i ∈ fitIndex trainLabels evalLabels) : i < trainLabels.length := by
  obtain ⟨g, hg, _⟩ := (mem_fitIndex trainLabels evalLabels i).1 h
  exact (List.getElem?_eq_some_iff.1 hg).1

/-- C5: with `fit_only_on_matched_groups = 1`, the training rows selected for
fitting by `ExtrapolateFull.execute` (lines 77–82) are exactly the rows whose
group label lies in the matched-group set: every row of every matched group is
retained and every row of an unmatched training group is excluded. -/
theorem fit_filter_matched_only :
    ∀ (trainLabels evalLabels : List String) (i : Nat),
      i ∈ fitIndex trainLabels evalLabels ↔
        ∃ g, trainLabels[i]? = some g ∧
          g ∈ matchedGroups trainLabels evalLabels :=
  mem_fitIndex

/-- C7: the overall statistic of the evaluator is the mean squared error over
every evaluation row, independent of the supported/unsupported split, and on
the concrete scenario eval_y = [1,2,3,4], predicted = [1,2,3,6],
supported_rows = [0,1,2], unsupported_rows = [3] the reported RMSEs are
overall 1, supported 0 and unsupported 2 (squared values 1, 0, 4, as
`np.sqrt(mean_squared_error(..))` reports the nonnegative square root). -/
theorem fit_evaluator_rmse :
    (∀ (ydata ypred : List ℚ) (sup unsup : List Nat) (st : ℚ × ℚ × ℚ),
        evaluator_stats ydata ypred sup unsup = some st →
        mean_squared_error ydata ypred = some st.1) ∧
    rmseSqIs (mean_squared_error [1, 2, 3, 4] [1, 2, 3, 6]) 1 ∧
    rmseSqIs (supported_rms [1, 2, 3, 4] [1, 2, 3, 6] [0, 1, 2]) 0 ∧
    rmseSqIs (unsupported_rms [1, 2, 3, 4] [1, 2, 3, 6] [3]) 2 := by
  refine ⟨?_, ?_, ?_, ?_⟩
  · intro ydata ypred sup unsup st h
    rw [evaluator_stats] at h
    simp only [Option.bind_eq_bind, Option.bind_eq_some, Option.pure_def,
      Option.some.injEq] at h
    obtain ⟨o, ho, s, _, u, _, hst⟩ := h
    rw [ho, ← hst]
  · constructor
    · norm_num [mean_squared_error, List.cons_ne_nil]
    · norm_num
  · constructor
    · norm_num [supported_rms, gather, mean_squared_error, List.cons_ne_nil]
    · norm_num
  · constructor
    · norm_num [unsupported_rms, gather, mean_squared_error, List.cons_ne_nil]
    · norm_num

/-- Witness for C7: the general overall-RMSE conjunct applied at the concrete
scenario, whose evaluator run is computed explicitly. -/
theorem fit_evaluator_rmse_witness :
    evaluator_stats [1, 2, 3, 4] [1, 2, 3, 6] [0, 1, 2] [3] = some (1, 0, 4) ∧
    mean_squared_error [1, 2, 3, 4] [1, 2, 3, 6] =
      some ((1 : ℚ), (0 : ℚ), (4 : ℚ)).1 := by
  have h : evaluator_stats [1, 2, 3, 4] [1, 2, 3, 6] [0, 1, 2] [3] =
      some (1, 0, 4) := by
    norm_num [evaluator_stats, mean_squared_error, supported_rms,
      unsupported_rms, gather, List.cons_ne_nil]
  exact ⟨h, fit_evaluator_rmse.1 _ _ _ _ _ h⟩

theorem mem_intersectIdx {a b : List Nat} {i : Nat} :
    i ∈ intersectIdx a b ↔ i ∈ a ∧ i ∈ b := by
  rw [intersectIdx, List.mem_insertionSort, List.mem_filter, mem_firstDedup,
    decide_eq_true_eq]

theorem intersectIdx_pos_iff {a b : List Nat} :
    0 < (intersectIdx a b).length ↔ ∃ i, i ∈ a ∧ i ∈ b := by
  rw [List.length_pos]
  constructor
  · intro h
    obtain ⟨i, hi⟩ := List.exists_mem_of_ne_nil _ h
    exact ⟨i, mem_intersectIdx.1 hi⟩
  · rintro ⟨i, hi⟩ hnil
    rw [List.eq_nil_iff_forall_not_mem] at hnil
    exact hnil i (mem_intersectIdx.2 hi)

/-- C8: the per-group record of `SingleFitGrouped.get_per_group_statistics`
carries the filtered entry `rmse_plot_filter_out` exactly when a plot filter
is supplied and the group's row indices meet the plotting index set; when the
intersection is empty the entry is absent (`none`), not a sentinel. -/
theorem per_group_filtered_presence :
    ∀ (ypred ydata : List ℚ) (g_index : List Nat) (pf : Option (List Nat))
      (st : GroupStats),
      get_per_group_statistic ypred ydata g_index pf = some st →
      (st.rmse_plot_filter_out.isSome ↔
        ∃ pidx, pf = some pidx ∧ ∃ i, i ∈ g_index ∧ i ∈ pidx) := by
  intro ypred ydata g_index pf st h
  cases pf with
  | none =>
    rw [get_per_group_statistic] at h
    simp only [Option.bind_eq_bind, Option.bind_eq_some, Option.pure_def,
      Option.some.injEq] at h
    obtain ⟨gp, _, gy, _, r, _, hst⟩ := h
    rw [← hst]
    simp
  | some pidx =>
    rw [get_per_group_statistic] at h
    by_cases hlen : 0 < (intersectIdx g_index pidx).length
    · simp only [Option.bind_eq_bind, Option.bind_eq_some, if_pos hlen,
        Option.pure_def, Option.some.injEq] at h
      obtain ⟨gp, _, gy, _, r, _, gp2, _, gy2, _, r2, _, hst⟩ := h
      rw [← hst]
      simp only [Option.isSome_some, true_iff]
      exact ⟨pidx, rfl, intersectIdx_pos_iff.1 hlen⟩
    · simp only [Option.bind_eq_bind, Option.bind_eq_some, if_neg hlen,
        Option.pure_def, Option.some.injEq] at h
      obtain ⟨gp, _, gy, _, r, _, hst⟩ := h
      rw [← hst]
      simp only [Option.isSome_none, Bool.false_eq_true, false_iff]
      rintro ⟨pidx', heq, i, hi⟩
      rw [Option.some.injEq] at heq
      subst heq
      exact hlen (intersectIdx_pos_iff.2 ⟨i, hi⟩)

/-- Witness for C8: a concrete run where the plot filter is supplied and the
intersection is non-empty, evaluated explicitly, with the presence equivalence
instantiated there. -/
theorem per_group_filtered_presence_witness :
    get_per_group_statistic [1] [1] [0] (some [0]) = some ⟨0, some 0⟩ ∧
    ((⟨0, some 0⟩ : GroupStats).rmse_plot_filter_out.isSome ↔
      ∃ pidx, (some [0] : Option (List Nat)) = some pidx ∧
        ∃ i, i ∈ [0] ∧ i ∈ pidx) := by
  have h : get_per_group_statistic [1] [1] [0] (some [0]) =
      some ⟨0, some 0⟩ := by
    norm_num [get_per_group_statistic, gather, mean_squared_error,
      intersectIdx, firstDedup, List.cons_ne_nil]
  exact ⟨h, per_group_filtered_presence _ _ _ _ _ h⟩

/-- C9: missing configuration fails fast before any model fitting: a grouped
fit with no grouping feature raises
`ValueError("grouping_feature is not set.")`, absent testing target data
raises `ValueError("testing target data cannot be None")`, and only a run
passing both checks ever reaches the fit step. -/
theorem config_errors_before_fit :
    (∀ (mark : Nat) (fitOnly : Bool) (ty : Option (List ℚ)),
        sfg_run none mark fitOnly ty =
          .error "grouping_feature is not set.") ∧
    (∀ (gf : String) (mark : Nat) (fitOnly : Bool),
        sfg_run (some gf) mark fitOnly none =
          .error "testing target data cannot be None") ∧
    (∀ (gf : String) (mark : Nat) (fitOnly : Bool) (y : List ℚ),
        sfg_run (some gf) mark fitOnly (some y) =
          .ok [SFGEv.fit, SFGEv.stats]) := by
  refine ⟨?_, ?_, ?_⟩ <;> intros <;> rfl

/-- C10: `plot_filter_out` is dead in `ExtrapolateFull.execute`: two runs
differing only in that parameter produce identical traces, fitted model,
predictions and statistics. -/
theorem plot_filter_out_noninterference :
    ∀ (σ ρ : Type) (fitfn : List ρ → List ℚ → σ)
      (predictfn : σ → List ρ → List ℚ)
      (fit_Xdata : List ρ) (fit_ydata : List ℚ) (trainLabels : List String)
      (topredict_Xdata : List ρ) (topredict_ydata : List ℚ)
      (evalLabels : List String) (std_Xdata : Option (List ρ))
      (pfo1 pfo2 : String) (flag : Bool),
      executeFull fitfn predictfn fit_Xdata fit_ydata trainLabels
          topredict_Xdata topredict_ydata evalLabels std_Xdata pfo1 flag =
        executeFull fitfn predictfn fit_Xdata fit_ydata trainLabels
          topredict_Xdata topredict_ydata evalLabels std_Xdata pfo2 flag := by
  intros
  rfl

theorem rmseEvents_rmse_only (ydata ypred : List ℚ) (sup unsup : List Nat) :
    ∀ e ∈ (rmseEvents ydata ypred sup unsup).1, ∃ w, e = Ev.rmse w := by
  intro e he
  rcases hmo : mean_squared_error ydata ypred with _ | o
  · rw [rmseEvents, hmo] at he
    simp at he
  · rcases hs : supported_rms ydata ypred sup with _ | s
    · rw [rmseEvents, hmo, hs] at he
      simp at he
      exact ⟨"overall", he⟩
    · rcases hu : unsupported_rms ydata ypred unsup with _ | u
      · rw [rmseEvents, hmo, hs, hu] at he
        simp at he
        rcases he with h | h <;> exact ⟨_, h⟩
      · rw [rmseEvents, hmo, hs, hu] at he
        simp at he
        rcases he with h | h | h <;> exact ⟨_, h⟩

theorem executeFullAux_trace {σ ρ : Type} (fitfn : List ρ → List ℚ → σ)
    (predictfn : σ → List ρ → List ℚ) (trainLabels : List String)
    (topredict_Xdata : List ρ) (topredict_ydata : List ℚ)
    (evalLabels : List String) (std_Xdata : Option (List ρ))
    (p : List ρ × List ℚ) :
    ∃ rest,
      (executeFullAux fitfn predictfn trainLabels topredict_Xdata
          topredict_ydata evalLabels std_Xdata p).trace =
        Ev.fit p.1.length :: Ev.predictEval topredict_Xdata.length :: rest ∧
      ∀ e ∈ rest, (∃ m, e = Ev.predictStd m) ∨ (∃ w, e = Ev.rmse w) := by
  refine ⟨(match std_Xdata with
    | some sx => [Ev.predictStd sx.length]
    | none => []) ++
      (rmseEvents topredict_ydata
        (predictfn (fitfn p.1 p.2) topredict_Xdata)
        (splitSupported (buildGroupIndex evalLabels)
          (matchedGroups trainLabels evalLabels)).1
        (splitSupported (buildGroupIndex evalLabels)
          (matchedGroups trainLabels evalLabels)).2).1, ?_, ?_⟩
  · rfl
  intro e he
  rw [List.mem_append] at he
  rcases he with hstd | hrm
  · cases std_Xdata with
    | none => simp at hstd
    | some sx =>
      simp at hstd
      exact Or.inl ⟨_, hstd⟩
  · exact Or.inr (rmseEvents_rmse_only _ _ _ _ e hrm)

/-- C6: in every run of the modelled `ExtrapolateFull.execute` whose training
arrays are consistent with the grouping data, the trace starts with exactly
one fit event on the (possibly filtered) training arrays, followed by exactly
one predict event on the full evaluation feature matrix, and everything after
them is a standard-conditions predict or an RMSE computation — so `fit` runs
once, then `predict` once on the whole evaluation matrix (never per-group),
both before any RMSE statistic. -/
theorem fit_predict_order :
    ∀ (σ ρ : Type) (fitfn : List ρ → List ℚ → σ)
      (predictfn : σ → List ρ → List ℚ)
      (fit_Xdata : List ρ) (fit_ydata : List ℚ) (trainLabels : List String)
      (topredict_Xdata : List ρ) (topredict_ydata : List ℚ)
      (evalLabels : List String) (std_Xdata : Option (List ρ))
      (pfo : String) (flag : Bool),
      (flag = true →
        fit_Xdata.length = trainLabels.length ∧
        fit_ydata.length = trainLabels.length) →
      ∃ (n : Nat) (rest : List Ev),
        (executeFull fitfn predictfn fit_Xdata fit_ydata trainLabels
            topredict_Xdata topredict_ydata evalLabels std_Xdata pfo
            flag).trace =
          Ev.fit n :: Ev.predictEval topredict_Xdata.length :: rest ∧
        ∀ e ∈ rest, (∃ m, e = Ev.predictStd m) ∨ (∃ w, e = Ev.rmse w) := by
  intro σ ρ fitfn predictfn fX fy tL pX py eL sX pfo flag hlen
  cases flag with
  | false =>
    have h : executeFull fitfn predictfn fX fy tL pX py eL sX pfo false =
        executeFullAux fitfn predictfn tL pX py eL sX (fX, fy) := rfl
    rw [h]
    obtain ⟨rest, htr, hmem⟩ :=
      executeFullAux_trace fitfn predictfn tL pX py eL sX (fX, fy)
    exact ⟨fX.length, rest, htr, hmem⟩
  | true =>
    obtain ⟨hx, hy⟩ := hlen rfl
    have hbx : ∀ i ∈ fitIndex tL eL, i < fX.length := fun i hi =>
      hx ▸ fitIndex_lt hi
    have hby : ∀ i ∈ fitIndex tL eL, i < fy.length := fun i hi =>
      hy ▸ fitIndex_lt hi
    obtain ⟨fx, hgx, _⟩ := gather_eq_some fX _ hbx
    obtain ⟨fyl, hgy, _⟩ := gather_eq_some fy _ hby
    have h : executeFull fitfn predictfn fX fy tL pX py eL sX pfo true =
        executeFullAux fitfn predictfn tL pX py eL sX (fx, fyl) := by
      simp [executeFull, hgx, hgy]
    rw [h]
    obtain ⟨rest, htr, hmem⟩ :=
      executeFullAux_trace fitfn predictfn tL pX py eL sX (fx, fyl)
    exact ⟨fx.length, rest, htr, hmem⟩

/-- Witness for C6: a concrete unfiltered run on one training row and one
evaluation row, with the length hypothesis discharged vacuously. -/
theorem fit_predict_order_witness :
    ((false = true) →
      ([()] : List Unit).length = (["X"] : List String).length ∧
      ([(1 : ℚ)] : List ℚ).length = (["X"] : List String).length) ∧
    ∃ (n : Nat) (rest : List Ev),
      (executeFull (fun (_ : List Unit) (_ : List ℚ) => ())
          (fun _ xs => xs.map fun _ => (0 : ℚ)) [()] [1] ["X"] [()] [1] ["X"]
          none "" false).trace =
        Ev.fit n :: Ev.predictEval ([()] : List Unit).length :: rest ∧
      ∀ e ∈ rest, (∃ m, e = Ev.predictStd m) ∨ (∃ w, e = Ev.rmse w) :=
  ⟨(fun h => nomatch h),
    fit_predict_order Unit Unit (fun _ _ => ()) (fun _ xs => xs.map fun _ => 0)
      [()] [1] ["X"] [()] [1] ["X"] none "" false (fun h => nomatch h)⟩

theorem tupLt_iff (a b : Entry) : tupLt a b = true ↔ toLex a < toLex b := by
  rw [Prod.Lex.lt_iff]
  simp [tupLt]

theorem tupLt_false_iff (a b : Entry) :
    tupLt a b = false ↔ toLex b ≤ toLex a := by
  rw [← Bool.not_eq_true, tupLt_iff, not_lt]

theorem toLex_fst_le {a b : Entry} (h : toLex a ≤ toLex b) : a.1 ≤ b.1 := by
  rcases (Prod.Lex.le_iff a b).1 h with h1 | ⟨h1, _⟩
  · exact le_of_lt h1
  · exact le_of_eq h1

theorem pyFold_mem : ∀ (xs : List Entry) (x : Entry), pyFold x xs ∈ x :: xs := by
  intro xs
  induction xs with
  | nil => intro x; exact List.mem_cons_self ..
  | cons y ys ih =>
    intro x
    rw [pyFold]
    by_cases ht : tupLt y x = true
    · rw [if_pos ht]
      rcases List.mem_cons.1 (ih y) with h | h
      · rw [h]; exact List.mem_cons_of_mem _ (List.mem_cons_self ..)
      · exact List.mem_cons_of_mem _ (List.mem_cons_of_mem _ h)
    · rw [if_neg ht]
      rcases List.mem_cons.1 (ih x) with h | h
      · rw [h]; exact List.mem_cons_self ..
      · exact List.mem_cons_of_mem _ (List.mem_cons_of_mem _ h)

theorem pyFold_le : ∀ (xs : List Entry) (x y : Entry), y ∈ x :: xs →
    toLex (pyFold x xs) ≤ toLex y := by
  intro xs
  induction xs with
  | nil =>
    intro x y hy
    rcases List.mem_cons.1 hy with h | h
    · subst h; exact le_refl _
    · exact absurd h (List.not_mem_nil _)
  | cons z zs ih =>
    intro x y hy
    rw [pyFold]
    by_cases ht : tupLt z x = true
    · rw [if_pos ht]
      rcases List.mem_cons.1 hy with h | h
      · subst h
        exact le_trans (ih z z (List.mem_cons_self ..))
          (le_of_lt ((tupLt_iff z y).1 ht))
      · exact ih z y h
    · rw [if_neg ht]
      have htf : tupLt z x = false := Bool.eq_false_iff.2 ht
      rcases List.mem_cons.1 hy with h | h
      · subst h
        exact ih y y (List.mem_cons_self ..)
      · rcases List.mem_cons.1 h with h' | h'
        · subst h'
          exact le_trans (ih x x (List.mem_cons_self ..))
            ((tupLt_false_iff y x).1 htf)
        · exact ih x y (List.mem_cons_of_mem _ h')

theorem pyMin_spec {hr : List Entry} (h : hr ≠ []) :
    ∃ mn, pyMin hr = some mn ∧ mn ∈ hr ∧ ∀ y ∈ hr, toLex mn ≤ toLex y := by
  cases hr with
  | nil => exact absurd rfl h
  | cons x xs =>
    exact ⟨pyFold x xs, rfl, pyFold_mem xs x, fun y hy => pyFold_le xs x y hy⟩

theorem idxOf_set_decomp :
    ∀ (hr : List Entry) (mn e : Entry), mn ∈ hr →
      ∃ l₁ l₂, hr = l₁ ++ mn :: l₂ ∧ mn ∉ l₁ ∧
        hr.set (idxOf hr mn) e = l₁ ++ e :: l₂ := by
  intro hr
  induction hr with
  | nil => intro mn e h; exact absurd h (List.not_mem_nil _)
  | cons x xs ih =>
    intro mn e h
    by_cases hx : x = mn
    · subst hx
      exact ⟨[], xs, rfl, List.not_mem_nil _, by rw [idxOf, if_pos rfl]; rfl⟩
    · have hmn : mn ∈ xs := by
        rcases List.mem_cons.1 h with h' | h'
        · exact absurd h'.symm hx
        · exact h'
      obtain ⟨l₁, l₂, h1, h2, h3⟩ := ih mn e hmn
      refine ⟨x :: l₁, l₂, by rw [List.cons_append, ← h1], ?_, ?_⟩
      · intro hc
        rcases List.mem_cons.1 hc with h' | h'
        · exact hx h'.symm
        · exact h2 h'
      · rw [idxOf, if_neg hx, List.set_cons_succ, h3, List.cons_append]

theorem mem_nsFilter {l : List Entry} {e : Entry} :
    e ∈ nsFilter l ↔ e ∈ l ∧ e ≠ sent := by
  simp [nsFilter, List.mem_filter]

theorem nsFilter_append (l₁ l₂ : List Entry) :
    nsFilter (l₁ ++ l₂) = nsFilter l₁ ++ nsFilter l₂ :=
  List.filter_append ..

theorem nsFilter_cons_of_ne {a : Entry} (l : List Entry) (h : a ≠ sent) :
    nsFilter (a :: l) = a :: nsFilter l := by
  simp [nsFilter, List.filter_cons, h]

theorem nsFilter_cons_sent (l : List Entry) :
    nsFilter (sent :: l) = nsFilter l := by
  simp [nsFilter, List.filter_cons]

theorem nsFilter_replicate : ∀ m : Nat, nsFilter (List.replicate m sent) = [] := by
  intro m
  induction m with
  | zero => rfl
  | succ n ih => rw [List.replicate_succ, nsFilter_cons_sent, ih]

theorem ne_sent_of_pos {e : Entry} (h : 0 < e.1) : e ≠ sent := by
  intro heq
  rw [heq] at h
  exact lt_irrefl 0 h

theorem valNe_symmetric : Symmetric valNe := fun _ _ h => Ne.symm h

theorem nodup_of_pairwise_valNe {l : List Entry} (h : l.Pairwise valNe) :
    l.Nodup :=
  h.imp fun hv heq => hv (congrArg Prod.fst heq)

theorem nonsent_mem_A {A hr : List Entry} (inv : SlotsInv A hr) {y : Entry}
    (hy : y ∈ hr) (hys : y ≠ sent) : y ∈ A := by
  rcases inv.mem_of y hy with h | h
  · exact absurd h hys
  · exact h

theorem all_nonsent_of_ge {A hr : List Entry} (inv : SlotsInv A hr)
    (h : hr.length ≤ A.length) : ∀ y ∈ hr, y ≠ sent := by
  have hlen : (nsFilter hr).length = hr.length := by
    rw [inv.count, min_eq_left h]
  have heq : nsFilter hr = hr :=
    (List.filter_sublist hr).eq_of_length hlen
  intro y hy
  rw [← heq] at hy
  exact (mem_nsFilter.1 hy).2

theorem sent_mem_of_lt {A hr : List Entry} (inv : SlotsInv A hr)
    (h : A.length < hr.length) : sent ∈ hr := by
  have hlt : (nsFilter hr).length < hr.length := by
    rw [inv.count, min_eq_right (le_of_lt h)]
    exact h
  obtain ⟨x, hx, hpx⟩ := List.length_filter_lt_length_iff_exists.1 hlt
  have hxs : x = sent := by
    by_contra hne
    exact hpx (bne_iff_ne.2 hne)
  rw [← hxs]
  exact hx

theorem min_ge_len_of_nonsent {A hr : List Entry} (inv : SlotsInv A hr)
    (hposA : ∀ x ∈ A, 0 < x.1) {mn : Entry} (hmem : mn ∈ hr)
    (hle : ∀ y ∈ hr, toLex mn ≤ toLex y) (hsent : mn ≠ sent) :
    hr.length ≤ A.length := by
  by_contra h'
  push_neg at h'
  have hs := hle sent (sent_mem_of_lt inv h')
  have h0 : mn.1 ≤ 0 := toLex_fst_le hs
  have h1 := hposA mn (nonsent_mem_A inv hmem hsent)
  exact absurd (lt_of_lt_of_le h1 h0) (lt_irrefl 0)

theorem A_mem_hr_of_lt {A hr : List Entry} (inv : SlotsInv A hr)
    (h : A.length < hr.length) : ∀ x ∈ A, x ∈ hr := by
  have hcount : (nsFilter hr).length = A.length := by
    rw [inv.count, min_eq_right (le_of_lt h)]
  have hnd : (nsFilter hr).Nodup := nodup_of_pairwise_valNe inv.pair
  have hsub : nsFilter hr ⊆ A := fun e he =>
    nonsent_mem_A inv (mem_nsFilter.1 he).1 (mem_nsFilter.1 he).2
  have hperm : (nsFilter hr).Perm A :=
    (List.subperm_of_subset hnd hsub).perm_of_length_le (le_of_eq hcount.symm)
  intro x hx
  exact (mem_nsFilter.1 (hperm.mem_iff.2 hx)).1

theorem pairwise_insert_middle {l₁ l₂ : List Entry} {b : Entry}
    (h : (l₁ ++ l₂).Pairwise valNe)
    (hb₁ : ∀ y ∈ l₁, valNe y b) (hb₂ : ∀ y ∈ l₂, valNe b y) :
    (l₁ ++ b :: l₂).Pairwise valNe := by
  rw [List.pairwise_append] at h
  obtain ⟨h1, h2, h3⟩ := h
  rw [List.pairwise_append]
  refine ⟨h1, ?_, ?_⟩
  · rw [List.pairwise_cons]
    exact ⟨hb₂, h2⟩
  · intro a ha b' hb'
    rcases List.mem_cons.1 hb' with h' | h'
    · rw [h']
      exact hb₁ a ha
    · exact h3 a ha b' h'

theorem pairwise_replace_middle {l₁ l₂ : List Entry} {a b : Entry}
    (h : (l₁ ++ a :: l₂).Pairwise valNe)
    (hb₁ : ∀ y ∈ l₁, valNe y b) (hb₂ : ∀ y ∈ l₂, valNe b y) :
    (l₁ ++ b :: l₂).Pairwise valNe :=
  pairwise_insert_middle
    (List.Pairwise.sublist ((List.sublist_cons_self a l₂).append_left l₁) h)
    hb₁ hb₂

theorem not_mem_middle_parts {l₁ l₂ : List Entry} {mn : Entry}
    (h : (nsFilter l₁ ++ mn :: nsFilter l₂).Pairwise valNe) :
    mn ∉ nsFilter l₁ ∧ mn ∉ nsFilter l₂ := by
  rw [List.pairwise_append] at h
  obtain ⟨_, h2, h3⟩ := h
  constructor
  · intro hmem
    exact (h3 mn hmem mn (List.mem_cons_self ..)) rfl
  · intro hmem
    rw [List.pairwise_cons] at h2
    exact (h2.1 mn hmem) rfl

theorem slots_step {A hr : List Entry} {g : String} {v : ℚ}
    (hne : hr ≠ [])
    (hposA : ∀ x ∈ A, 0 < x.1) (hposv : 0 < v)
    (hApair : A.Pairwise valNe)
    (hvA : ∀ x ∈ A, x.1 ≠ v)
    (inv : SlotsInv A hr) :
    ∃ hr', outlierStep hr (g, some v) = some hr' ∧
      SlotsInv (A ++ [(v, g)]) hr' ∧ hr'.length = hr.length := by
  obtain ⟨mn, hpm, hmem, hle⟩ := pyMin_spec hne
  have hvg_ns : ((v, g) : Entry) ≠ sent := ne_sent_of_pos hposv
  by_cases hlt : mn.1 < v
  · refine ⟨hr.set (idxOf hr mn) (v, g), by simp [outlierStep, hpm, hlt], ?_,
      List.length_set ..⟩
    obtain ⟨l₁, l₂, hdec, hnotin, hset⟩ := idxOf_set_decomp hr mn (v, g) hmem
    rw [hset]
    have hmem_parts : ∀ y, y ∈ l₁ ∨ y ∈ l₂ → y ∈ hr := by
      intro y hy
      rw [hdec]
      rcases hy with hy | hy
      · exact List.mem_append_left _ hy
      · exact List.mem_append_right _ (List.mem_cons_of_mem _ hy)
    have hvalne : ∀ y, y ∈ nsFilter l₁ ∨ y ∈ nsFilter l₂ → y.1 ≠ v := by
      intro y hy
      have hyhr : y ∈ hr := hmem_parts y (by
        rcases hy with hy | hy
        · exact Or.inl (mem_nsFilter.1 hy).1
        · exact Or.inr (mem_nsFilter.1 hy).1)
      have hyns : y ≠ sent := by
        rcases hy with hy | hy <;> exact (mem_nsFilter.1 hy).2
      exact hvA y (nonsent_mem_A inv hyhr hyns)
    have hmem_of : ∀ e ∈ l₁ ++ ((v, g) : Entry) :: l₂,
        e = sent ∨ e ∈ A ++ [((v, g) : Entry)] := by
      intro y hy
      rcases List.mem_append.1 hy with hy | hy
      · rcases inv.mem_of y (hmem_parts y (Or.inl hy)) with h | h
        · exact Or.inl h
        · exact Or.inr (List.mem_append_left _ h)
      · rcases List.mem_cons.1 hy with h | hy
        · rw [h]
          exact Or.inr (List.mem_append_right _ (List.mem_cons_self ..))
        · rcases inv.mem_of y (hmem_parts y (Or.inr hy)) with h | h
          · exact Or.inl h
          · exact Or.inr (List.mem_append_left _ h)
    have hlen_eq : (l₁ ++ ((v, g) : Entry) :: l₂).length = hr.length := by
      rw [hdec]
      simp
    by_cases hsent : mn = sent
    · subst hsent
      have hAlt : A.length < hr.length := by
        by_contra hge
        push_neg at hge
        exact (all_nonsent_of_ge inv hge _ hmem) rfl
      have hcount_old : (nsFilter hr).length = A.length := by
        rw [inv.count, min_eq_right (le_of_lt hAlt)]
      have hnsdec : nsFilter hr = nsFilter l₁ ++ nsFilter l₂ := by
        rw [hdec, nsFilter_append, nsFilter_cons_sent]
      refine ⟨hmem_of, ?_, ?_, ?_⟩
      · have hsum : (nsFilter l₁).length + (nsFilter l₂).length = A.length := by
          rw [hnsdec, List.length_append] at hcount_old
          exact hcount_old
        rw [nsFilter_append, nsFilter_cons_of_ne _ hvg_ns, List.length_append,
          List.length_cons, hlen_eq, List.length_append, List.length_singleton,
          min_eq_right (Nat.succ_le_of_lt hAlt)]
        omega
      · intro x hx hxnot y hy hysent
        exfalso
        rcases List.mem_append.1 hx with hxA | hxe
        · have hxhr := A_mem_hr_of_lt inv hAlt x hxA
          have hxns : x ≠ sent := ne_sent_of_pos (hposA x hxA)
          apply hxnot
          rw [hdec] at hxhr
          rcases List.mem_append.1 hxhr with h | h
          · exact List.mem_append_left _ h
          · rcases List.mem_cons.1 h with h | h
            · exact absurd h hxns
            · exact List.mem_append_right _ (List.mem_cons_of_mem _ h)
        · rw [List.mem_singleton] at hxe
          apply hxnot
          rw [hxe]
          exact List.mem_append_right _ (List.mem_cons_self ..)
      · rw [nsFilter_append, nsFilter_cons_of_ne _ hvg_ns]
        apply pairwise_insert_middle (hnsdec ▸ inv.pair)
        · intro y hy
          exact hvalne y (Or.inl hy)
        · intro y hy
          exact (hvalne y (Or.inr hy)).symm
    · have hge : hr.length ≤ A.length :=
        min_ge_len_of_nonsent inv hposA hmem hle hsent
      have hmnA : mn ∈ A := nonsent_mem_A inv hmem hsent
      have hnsdec : nsFilter hr = nsFilter l₁ ++ mn :: nsFilter l₂ := by
        rw [hdec, nsFilter_append, nsFilter_cons_of_ne _ hsent]
      have hpair_old : (nsFilter l₁ ++ mn :: nsFilter l₂).Pairwise valNe :=
        hnsdec ▸ inv.pair
      obtain ⟨hmn1, hmn2⟩ := not_mem_middle_parts hpair_old
      refine ⟨hmem_of, ?_, ?_, ?_⟩
      · have hcount_old : (nsFilter hr).length = hr.length := by
          rw [inv.count, min_eq_left hge]
        have hsum : (nsFilter l₁).length + ((nsFilter l₂).length + 1) =
            hr.length := by
          rw [hnsdec, List.length_append, List.length_cons] at hcount_old
          omega
        rw [nsFilter_append, nsFilter_cons_of_ne _ hvg_ns, List.length_append,
          List.length_cons, hlen_eq, List.length_append, List.length_singleton,
          min_eq_left (le_trans hge (Nat.le_succ _))]
        omega
      · intro x hx hxnot y hy hysent
        rcases List.mem_append.1 hx with hxA | hxe
        · by_cases hxhr : x ∈ hr
          · have hxmn : x = mn := by
              rw [hdec] at hxhr
              rcases List.mem_append.1 hxhr with h | h
              · exact absurd (List.mem_append_left _ h) hxnot
              · rcases List.mem_cons.1 h with h | h
                · exact h
                · exact absurd
                    (List.mem_append_right _ (List.mem_cons_of_mem _ h)) hxnot
            subst hxmn
            rcases List.mem_append.1 hy with hy | hy
            · have hyhr := hmem_parts y (Or.inl hy)
              have hy_ne : y ≠ x := by
                intro heq
                exact hmn1 (heq ▸ mem_nsFilter.2 ⟨hy, hysent⟩)
              have hyA : y ∈ A := nonsent_mem_A inv hyhr hysent
              have hvne :=
                List.Pairwise.forall valNe_symmetric hApair hxA hyA
                  (Ne.symm hy_ne)
              exact lt_of_le_of_ne (toLex_fst_le (hle y hyhr)) hvne
            · rcases List.mem_cons.1 hy with hye | hy
              · rw [hye]
                exact hlt
              · have hyhr := hmem_parts y (Or.inr hy)
                have hy_ne : y ≠ x := by
                  intro heq
                  exact hmn2 (heq ▸ mem_nsFilter.2 ⟨hy, hysent⟩)
                have hyA : y ∈ A := nonsent_mem_A inv hyhr hysent
                have hvne :=
                  List.Pairwise.forall valNe_symmetric hApair hxA hyA
                    (Ne.symm hy_ne)
                exact lt_of_le_of_ne (toLex_fst_le (hle y hyhr)) hvne
          · rcases List.mem_append.1 hy with hy | hy
            · exact inv.dom x hxA hxhr y (hmem_parts y (Or.inl hy)) hysent
            · rcases List.mem_cons.1 hy with hye | hy
              · rw [hye]
                exact lt_trans (inv.dom x hxA hxhr mn hmem hsent) hlt
              · exact inv.dom x hxA hxhr y (hmem_parts y (Or.inr hy)) hysent
        · exfalso
          rw [List.mem_singleton] at hxe
          apply hxnot
          rw [hxe]
          exact List.mem_append_right _ (List.mem_cons_self ..)
      · rw [nsFilter_append, nsFilter_cons_of_ne _ hvg_ns]
        apply pairwise_replace_middle hpair_old
        · intro y hy
          exact hvalne y (Or.inl hy)
        · intro y hy
          exact (hvalne y (Or.inr hy)).symm
  · refine ⟨hr, by simp [outlierStep, hpm, hlt], ?_, rfl⟩
    have hsent : mn ≠ sent := by
      intro h
      rw [h] at hlt
      exact hlt hposv
    have hge : hr.length ≤ A.length :=
      min_ge_len_of_nonsent inv hposA hmem hle hsent
    have hmnA : mn ∈ A := nonsent_mem_A inv hmem hsent
    have hvlt : v < mn.1 := lt_of_le_of_ne (not_lt.1 hlt) (Ne.symm (hvA mn hmnA))
    refine ⟨?_, ?_, ?_, inv.pair⟩
    · intro y hy
      rcases inv.mem_of y hy with h | h
      · exact Or.inl h
      · exact Or.inr (List.mem_append_left _ h)
    · rw [inv.count, List.length_append, List.length_singleton,
        min_eq_left hge, min_eq_left (le_trans hge (Nat.le_succ _))]
    · intro x hx hxnot y hy hysent
      rcases List.mem_append.1 hx with hxA | hxe
      · exact inv.dom x hxA hxnot y hy hysent
      · rw [List.mem_singleton] at hxe
        rw [hxe]
        exact lt_of_lt_of_le hvlt (toLex_fst_le (hle y hy))

theorem outlierLoop_length :
    ∀ (stats : List (String × Option ℚ)) (hr : List Entry), hr ≠ [] →
      ∃ l, outlierLoop stats hr = some l ∧ l.length = hr.length := by
  intro stats
  induction stats with
  | nil => intro hr _; exact ⟨hr, rfl, rfl⟩
  | cons e rest ih =>
    intro hr h
    obtain ⟨mn, hpm, _, _⟩ := pyMin_spec h
    obtain ⟨g, c⟩ := e
    cases c with
    | none =>
      have hstep : outlierStep hr (g, none) = some hr := by
        simp [outlierStep, hpm]
      obtain ⟨l, hl, hlen⟩ := ih hr h
      exact ⟨l, by simp [outlierLoop, hstep, hl], hlen⟩
    | some v =>
      by_cases hlt : mn.1 < v
      · have hstep : outlierStep hr (g, some v) =
            some (hr.set (idxOf hr mn) (v, g)) := by
          simp [outlierStep, hpm, hlt]
        have hne : hr.set (idxOf hr mn) (v, g) ≠ [] := by
          rw [← List.length_pos, List.length_set, List.length_pos]
          exact h
        obtain ⟨l, hl, hlen⟩ := ih _ hne
        exact ⟨l, by simp [outlierLoop, hstep, hl],
          by rw [hlen, List.length_set]⟩
      · have hstep : outlierStep hr (g, some v) = some hr := by
          simp [outlierStep, hpm, hlt]
        obtain ⟨l, hl, hlen⟩ := ih hr h
        exact ⟨l, by simp [outlierLoop, hstep, hl], hlen⟩

theorem slots_loop :
    ∀ (stats : List (String × Option ℚ)) (A hr : List Entry),
      hr ≠ [] →
      (∀ x ∈ A ++ presentEntries stats, 0 < x.1) →
      (A ++ presentEntries stats).Pairwise valNe →
      SlotsInv A hr →
      ∃ l, outlierLoop stats hr = some l ∧
        SlotsInv (A ++ presentEntries stats) l ∧ l.length = hr.length := by
  intro stats
  induction stats with
  | nil =>
    intro A hr hne _ _ inv
    refine ⟨hr, rfl, ?_, rfl⟩
    have h : A ++ presentEntries [] = A := by simp [presentEntries]
    rw [h]
    exact inv
  | cons e rest ih =>
    intro A hr hne hpos hpair inv
    obtain ⟨g, c⟩ := e
    cases c with
    | none =>
      obtain ⟨mn, hpm, _, _⟩ := pyMin_spec hne
      have hstep : outlierStep hr (g, none) = some hr := by
        simp [outlierStep, hpm]
      have hpe : presentEntries ((g, none) :: rest) = presentEntries rest := by
        simp [presentEntries]
      rw [hpe] at hpos hpair ⊢
      obtain ⟨l, hl, hinv, hlen⟩ := ih A hr hne hpos hpair inv
      exact ⟨l, by simp [outlierLoop, hstep, hl], hinv, hlen⟩
    | some v =>
      have hpe : presentEntries ((g, some v) :: rest) =
          (v, g) :: presentEntries rest := by
        simp [presentEntries]
      rw [hpe] at hpos hpair ⊢
      have hposA : ∀ x ∈ A, 0 < x.1 := fun x hx =>
        hpos x (List.mem_append_left _ hx)
      have hposv : 0 < v :=
        hpos (v, g) (List.mem_append_right _ (List.mem_cons_self ..))
      have hApair : A.Pairwise valNe :=
        List.Pairwise.sublist (List.sublist_append_left A _) hpair
      have hvA : ∀ x ∈ A, x.1 ≠ v := by
        intro x hx
        exact (List.pairwise_append.1 hpair).2.2 x hx (v, g)
          (List.mem_cons_self ..)
      obtain ⟨hr', hstep, hinv', hlen'⟩ :=
        slots_step hne hposA hposv hApair hvA inv
      have hne' : hr' ≠ [] := by
        rw [← List.length_pos, hlen', List.length_pos]
        exact hne
      have hassoc : (A ++ [((v, g) : Entry)]) ++ presentEntries rest =
          A ++ (v, g) :: presentEntries rest := by
        rw [List.append_assoc, List.singleton_append]
      have hpos' : ∀ x ∈ (A ++ [((v, g) : Entry)]) ++ presentEntries rest,
          0 < x.1 := by
        rw [hassoc]
        exact hpos
      have hpair' :
          ((A ++ [((v, g) : Entry)]) ++ presentEntries rest).Pairwise valNe := by
        rw [hassoc]
        exact hpair
      obtain ⟨l, hl, hinv, hlen⟩ := ih (A ++ [(v, g)]) hr' hne' hpos' hpair' hinv'
      rw [hassoc] at hinv
      exact ⟨l, by simp [outlierLoop, hstep, hl], hinv, by rw [hlen, hlen']⟩

/-- C3 counterexample: on the mapping {A ↦ criterion 1, B ↦ criterion absent}
with k = 2, `get_outlying_groups` returns the two-slot list
[(1, A), (0, "nogroup")] of length 2, while min(k, number of groups with the
criterion present) = min(2, 1) = 1 — the claimed length formula is false (the
actual length is min(k, total number of groups)). -/
theorem outlier_selector_length_cex :
    getOutlyingGroups [("A", some (1 : ℚ)), ("B", none)] 2 =
      some [((1 : ℚ), "A"), sent] ∧
    (presentEntries [("A", some (1 : ℚ)), ("B", none)]).length = 1 ∧
    [((1 : ℚ), "A"), sent].length ≠ min 2 1 := by
  refine ⟨?_, rfl, by norm_num⟩
  norm_num [getOutlyingGroups, outlierLoop, outlierStep, pyMin, pyFold, tupLt,
    sent, idxOf, List.replicate, Prod.ext_iff]

/-- C3 (amended): `get_outlying_groups` maintains a working list of exactly
min(k, number of groups) slots initialised to (0, "nogroup") sentinels with
the min-replacement rule as claimed, and the returned sequence has length
min(k, total number of groups in the mapping) — not min(k, number of groups
with the criterion present); k = 0 yields an empty sequence only when the
mapping itself is empty, while k = 0 with at least one group raises (Python
`min([])` raises ValueError, modelled by `none`). -/
theorem outlier_selector_slots :
    (∀ (stats : List (String × Option ℚ)) (k : Nat),
        0 < k ∨ stats = [] →
        ∃ l, getOutlyingGroups stats k = some l ∧
          l.length = min k stats.length) ∧
    (∀ stats : List (String × Option ℚ), stats ≠ [] →
        getOutlyingGroups stats 0 = none) ∧
    getOutlyingGroups [] 0 = some [] := by
  refine ⟨?_, ?_, rfl⟩
  · intro stats k hk
    cases stats with
    | nil =>
      refine ⟨[], ?_, by simp⟩
      simp [getOutlyingGroups, outlierLoop]
    | cons s rest =>
      have hkpos : 0 < k := by
        rcases hk with h | h
        · exact h
        · exact absurd h (by simp)
      have hm : 0 < min k (s :: rest).length := lt_min hkpos (by simp)
      have hne : List.replicate (min k (s :: rest).length) sent ≠ [] := by
        rw [← List.length_pos, List.length_replicate]
        exact hm
      obtain ⟨l, hl, hlen⟩ := outlierLoop_length (s :: rest) _ hne
      exact ⟨l, hl, by rw [hlen, List.length_replicate]⟩
  · intro stats hne
    cases stats with
    | nil => exact absurd rfl hne
    | cons s rest => rfl

/-- Witness for C3 on the one-group mapping {A ↦ 1}: with k = 1 the selector
returns a list of length min(1, 1) = 1, and with k = 0 it raises. -/
theorem outlier_selector_slots_witness :
    (0 < 1 ∨ ([("A", some (1 : ℚ))] : List (String × Option ℚ)) = []) ∧
    (∃ l, getOutlyingGroups [("A", some (1 : ℚ))] 1 = some l ∧
      l.length = min 1 [("A", some (1 : ℚ))].length) ∧
    ([("A", some (1 : ℚ))] : List (String × Option ℚ)) ≠ [] ∧
    getOutlyingGroups [("A", some (1 : ℚ))] 0 = none :=
  ⟨Or.inl Nat.one_pos,
    outlier_selector_slots.1 [("A", some 1)] 1 (Or.inl Nat.one_pos),
    (by simp),
    outlier_selector_slots.2.1 [("A", some 1)] (by simp)⟩

/-- C2 counterexample: the group A has the criterion present with value 0 and
k = 1 ≥ 1 = number of groups with the criterion present, yet the returned
entries are all sentinel — (0, "A") is present but not among the non-sentinel
output — because a value of 0 never strictly exceeds the (0, "nogroup")
sentinel minimum.  The claim "the non-sentinel entries are exactly all such
groups" is therefore false for zero-valued criteria. -/
theorem outlier_selector_zero_value_cex :
    getOutlyingGroups [("A", some (0 : ℚ))] 1 = some [sent] ∧
    ((0 : ℚ), "A") ∈ presentEntries [("A", some (0 : ℚ))] ∧
    ((0 : ℚ), "A") ∉ nsFilter [sent] := by
  refine ⟨rfl, by simp [presentEntries], by simp [nsFilter]⟩

/-- C2 (amended): provided k ≥ 1 (k = 0 with a non-empty mapping raises) and
all present criterion values are strictly positive and pairwise distinct, the
selector returns a slot list whose non-sentinel entries are exactly the
min(k, count) present groups with the highest criterion values: they are
distinct present entries, there are min(k, count) of them, every present
entry not returned has a strictly smaller value than every returned one, and
when k ≥ count they are exactly all present groups.  The concrete scenario
A↦1, B↦5, C↦3, D↦2 with k = 2 yields {(5, B), (3, C)} (as the slot list
[(3, C), (5, B)]). -/
theorem outlier_selector_topk :
    (∀ (stats : List (String × Option ℚ)) (k : Nat),
        0 < k ∨ stats = [] →
        (∀ x ∈ presentEntries stats, 0 < x.1) →
        (presentEntries stats).Pairwise valNe →
        ∃ l, getOutlyingGroups stats k = some l ∧
          (∀ e ∈ nsFilter l, e ∈ presentEntries stats) ∧
          (nsFilter l).length = min k (presentEntries stats).length ∧
          (∀ x ∈ presentEntries stats, x ∉ nsFilter l →
            ∀ y ∈ nsFilter l, x.1 < y.1) ∧
          ((presentEntries stats).length ≤ k →
            ∀ e, e ∈ nsFilter l ↔ e ∈ presentEntries stats)) ∧
    getOutlyingGroups
        [("A", some 1), ("B", some 5), ("C", some 3), ("D", some 2)] 2 =
      some [((3 : ℚ), "C"), ((5 : ℚ), "B")] := by
  constructor
  · intro stats k hk hpos hpair
    cases stats with
    | nil =>
      refine ⟨[], by simp [getOutlyingGroups, outlierLoop], ?_, ?_, ?_, ?_⟩
      · intro e he
        simp [nsFilter] at he
      · simp [nsFilter, presentEntries]
      · intro x hx
        simp [presentEntries] at hx
      · intro _ e
        simp [nsFilter, presentEntries]
    | cons s rest =>
      have hkpos : 0 < k := by
        rcases hk with h | h
        · exact h
        · exact absurd h (by simp)
      have hm : 0 < min k (s :: rest).length := lt_min hkpos (by simp)
      have hne : List.replicate (min k (s :: rest).length) sent ≠ [] := by
        rw [← List.length_pos, List.length_replicate]
        exact hm
      have inv0 : SlotsInv []
          (List.replicate (min k (s :: rest).length) sent) := by
        refine ⟨?_, ?_, ?_, ?_⟩
        · intro e he
          exact Or.inl (List.mem_replicate.1 he).2
        · rw [nsFilter_replicate]
          simp
        · intro x hx
          exact absurd hx (List.not_mem_nil _)
        · rw [nsFilter_replicate]
          exact List.Pairwise.nil
      obtain ⟨l, hl, hinv, hlen⟩ := slots_loop (s :: rest) [] _ hne
        (by rwa [List.nil_append]) (by rwa [List.nil_append]) inv0
      rw [List.nil_append] at hinv
      have hsub : ∀ e ∈ nsFilter l, e ∈ presentEntries (s :: rest) := by
        intro e he
        obtain ⟨hel, hens⟩ := mem_nsFilter.1 he
        rcases hinv.mem_of e hel with h | h
        · exact absurd h hens
        · exact h
      have hPle : (presentEntries (s :: rest)).length ≤ (s :: rest).length :=
        List.length_filterMap_le _ _
      have hcount : (nsFilter l).length =
          min k (presentEntries (s :: rest)).length := by
        rw [hinv.count, hlen, List.length_replicate, min_assoc,
          min_eq_right hPle]
      refine ⟨l, hl, hsub, hcount, ?_, ?_⟩
      · intro x hx hxns y hy
        have hxl : x ∉ l := fun hxl =>
          hxns (mem_nsFilter.2 ⟨hxl, ne_sent_of_pos (hpos x hx)⟩)
        obtain ⟨hyl, hyns⟩ := mem_nsFilter.1 hy
        exact hinv.dom x hx hxl y hyl hyns
      · intro hPk e
        have hlen2 : (nsFilter l).length =
            (presentEntries (s :: rest)).length := by
          rw [hcount, min_eq_right hPk]
        have hnd : (nsFilter l).Nodup := nodup_of_pairwise_valNe hinv.pair
        have hperm : (nsFilter l).Perm (presentEntries (s :: rest)) :=
          (List.subperm_of_subset hnd (fun e he => hsub e he)).perm_of_length_le
            (le_of_eq hlen2.symm)
        exact hperm.mem_iff
  · norm_num [getOutlyingGroups, outlierLoop, outlierStep, pyMin, pyFold,
      tupLt, sent, idxOf, List.replicate, Prod.ext_iff]

/-- Witness for C2: the general theorem applied at the concrete A/B/C/D
scenario with k = 2, whose hypotheses (k positive, positive pairwise-distinct
criterion values) are checked by computation. -/
theorem outlier_selector_topk_witness :
    (0 < 2 ∨ ([("A", some (1 : ℚ)), ("B", some 5), ("C", some 3),
        ("D", some 2)] : List (String × Option ℚ)) = []) ∧
    (∀ x ∈ presentEntries [("A", some (1 : ℚ)), ("B", some 5), ("C", some 3),
        ("D", some 2)], 0 < x.1) ∧
    (presentEntries [("A", some (1 : ℚ)), ("B", some 5), ("C", some 3),
        ("D", some 2)]).Pairwise valNe ∧
    (∃ l, getOutlyingGroups [("A", some (1 : ℚ)), ("B", some 5),
          ("C", some 3), ("D", some 2)] 2 = some l ∧
      (∀ e ∈ nsFilter l, e ∈ presentEntries [("A", some (1 : ℚ)),
          ("B", some 5), ("C", some 3), ("D", some 2)]) ∧
      (nsFilter l).length = min 2 (presentEntries [("A", some (1 : ℚ)),
          ("B", some 5), ("C", some 3), ("D", some 2)]).length ∧
      (∀ x ∈ presentEntries [("A", some (1 : ℚ)), ("B", some 5),
          ("C", some 3), ("D", some 2)], x ∉ nsFilter l →
        ∀ y ∈ nsFilter l, x.1 < y.1) ∧
      ((presentEntries [("A", some (1 : ℚ)), ("B", some 5), ("C", some 3),
          ("D", some 2)]).length ≤ 2 →
        ∀ e, e ∈ nsFilter l ↔ e ∈ presentEntries [("A", some (1 : ℚ)),
            ("B", some 5), ("C", some 3), ("D", some 2)])) := by
  have h1 : ∀ x ∈ presentEntries [("A", some (1 : ℚ)), ("B", some 5),
      ("C", some 3), ("D", some 2)], 0 < x.1 := by
    intro x hx
    simp [presentEntries] at hx
    rcases hx with rfl | rfl | rfl | rfl <;> norm_num
  have h2 : (presentEntries [("A", some (1 : ℚ)), ("B", some 5),
      ("C", some 3), ("D", some 2)]).Pairwise valNe := by
    norm_num [presentEntries, List.filterMap_cons, List.pairwise_cons, valNe]
  exact ⟨Or.inl (by norm_num), h1, h2,
    outlier_selector_topk.1 _ 2 (Or.inl (by norm_num)) h1 h2⟩

end MastML
